import Mathlib

/-!
Shallow embedding of the preconditioner-composition core of the G+Smo
solver module, covering `gsCompositionOfPreconditionersOp` from
`src/gsSolver/gsCompositionOfPreconditionersOp.h` and the constructors of
`gsSinglePatchPreconditioners` from `src/gsSolver/gsSinglePatchPreconditioners.h`.

Modelling conventions:
* A constituent preconditioner (`gsPreconditionerOp`) is abstract in C++
  (a virtual interface); it is embedded as a structure of pure functions:
  `step f x` returns the new iterate obtained from right-hand side `f`
  and iterate `x` (the C++ code mutates `x` in place through a non-const
  reference while `f` is a const reference), `stepT` likewise for the
  transposed sweep, and `rows`, `cols`, `underlyingOp` are the dimension
  and underlying-operator queries.  Vectors are an abstract type `V` and
  underlying-operator handles an abstract type `O`.
* The composition stores `m_sz : Nat` and `m_ops : List (gsPreconditionerOp V O)`
  exactly like the C++ fields.  Its loops run over the index range
  `0 .. m_sz-1`; an index falling outside `m_ops` (impossible for objects
  built by the constructors, which maintain `m_sz = m_ops.length`, but the
  loops are driven by `m_sz`, not by the vector size) is undefined
  behaviour in C++ and is embedded as `Option.none`.
* `GISMO_ASSERT` failure (a fatal, non-recoverable abort) is embedded as
  `Option.none`; a method that passes its assertion returns `some` of its
  C++ return value.
-/

/-- Embedding of the abstract interface `gsPreconditionerOp<T>`:
`step`/`stepT` take the right-hand side and the current iterate and return
the updated iterate; `rows`, `cols` and `underlyingOp` are the queries of
the base classes `gsLinearOperator` / `gsPreconditionerOp`. -/
structure gsPreconditionerOp (V O : Type) where
  step : V → V → V
  stepT : V → V → V
  rows : Nat
  cols : Nat
  underlyingOp : O

/-- Embedding of the fields of `gsCompositionOfPreconditionersOp<T>`:
`m_sz` (C++ `index_t`) and the operator vector `m_ops`. -/
structure gsCompositionOfPreconditionersOp (V O : Type) where
  m_sz : Nat
  m_ops : List (gsPreconditionerOp V O)

namespace gsCompositionOfPreconditionersOp

variable {V O : Type}

/-- Embedding of the empty constructor `gsCompositionOfPreconditionersOp()`:
`m_sz(0), m_ops()`. -/
def emptyCtor : gsCompositionOfPreconditionersOp V O :=
  { m_sz := 0, m_ops := [] }

/-- Embedding of the constructor taking a vector of preconditioners:
`m_sz(ops.size()), m_ops(ops)`. -/
def ofVector (ops : List (gsPreconditionerOp V O)) :
    gsCompositionOfPreconditionersOp V O :=
  { m_sz := ops.length, m_ops := ops }

/-- Embedding of the convenience constructor taking two preconditioners:
`m_sz(2)`, `m_ops[0] = op0; m_ops[1] = op1`. -/
def ofTwo (op0 op1 : gsPreconditionerOp V O) :
    gsCompositionOfPreconditionersOp V O :=
  { m_sz := 2, m_ops := [op0, op1] }

/-- Embedding of the convenience constructor taking three preconditioners:
`m_sz(3)`, `m_ops[0] = op0; m_ops[1] = op1; m_ops[2] = op2`. -/
def ofThree (op0 op1 op2 : gsPreconditionerOp V O) :
    gsCompositionOfPreconditionersOp V O :=
  { m_sz := 3, m_ops := [op0, op1, op2] }

/-- Embedding of `addOperator(op)`: `m_sz++; m_ops.push_back(op)`. -/
def addOperator (c : gsCompositionOfPreconditionersOp V O)
    (op : gsPreconditionerOp V O) : gsCompositionOfPreconditionersOp V O :=
  { m_sz := c.m_sz + 1, m_ops := c.m_ops ++ [op] }

/-- Embedding of `step(f, x)`: `for (i = 0; i < m_sz; ++i) m_ops[i]->step(f, x)`.
The iterate is threaded through the loop; an out-of-range vector access
(C++ undefined behaviour) yields `none`. -/
def step (c : gsCompositionOfPreconditionersOp V O) (f x : V) : Option V :=
  (List.range c.m_sz).foldlM
    (fun y i => (c.m_ops[i]?).map (fun op => op.step f y)) x

/-- Embedding of `stepT(f, x)`: `for (i = m_sz - 1; i >= 0; --i) m_ops[i]->stepT(f, x)`
(`i` is a signed `index_t`, so for `m_sz = 0` the loop body never runs). -/
def stepT (c : gsCompositionOfPreconditionersOp V O) (f x : V) : Option V :=
  ((List.range c.m_sz).reverse).foldlM
    (fun y i => (c.m_ops[i]?).map (fun op => op.stepT f y)) x

/-- Embedding of `step(f, x)` threading the full C++ reference state
`(f, x)`: each loop iteration calls `m_ops[i]->step(f, x)` on the same
pair of references, and the callee receives `f` through a const reference,
so the `f` component is passed through unchanged while `x` is updated. -/
def stepFull (c : gsCompositionOfPreconditionersOp V O) (p : V × V) :
    Option (V × V) :=
  (List.range c.m_sz).foldlM
    (fun q i => (c.m_ops[i]?).map (fun op => (q.1, op.step q.1 q.2))) p

/-- Embedding of `stepT(f, x)` threading the full reference state `(f, x)`,
with the descending loop of `stepT`. -/
def stepTFull (c : gsCompositionOfPreconditionersOp V O) (p : V × V) :
    Option (V × V) :=
  ((List.range c.m_sz).reverse).foldlM
    (fun q i => (c.m_ops[i]?).map (fun op => (q.1, op.stepT q.1 q.2))) p

/-- Embedding of `underlyingOp()`: `GISMO_ASSERT(m_sz > 0, ...)` then
`return m_ops[0]->underlyingOp()`; assertion failure is `none`. -/
def underlyingOp (c : gsCompositionOfPreconditionersOp V O) : Option O :=
  if 0 < c.m_sz then (c.m_ops[0]?).map gsPreconditionerOp.underlyingOp else none

/-- Embedding of `rows()`: `GISMO_ASSERT(m_sz > 0, ...)` then
`return m_ops[0]->rows()`; assertion failure is `none`. -/
def rows (c : gsCompositionOfPreconditionersOp V O) : Option Nat :=
  if 0 < c.m_sz then (c.m_ops[0]?).map gsPreconditionerOp.rows else none

/-- Embedding of `cols()`: `GISMO_ASSERT(m_sz > 0, ...)` then
`return m_ops[0]->cols()`; assertion failure is `none`. -/
def cols (c : gsCompositionOfPreconditionersOp V O) : Option Nat :=
  if 0 < c.m_sz then (c.m_ops[0]?).map gsPreconditionerOp.cols else none

/-- The class invariant stated by the spec: `m_sz` is always `m_ops.size()`. -/
def Invariant (c : gsCompositionOfPreconditionersOp V O) : Prop :=
  c.m_sz = c.m_ops.length

end gsCompositionOfPreconditionersOp

namespace dirichlet

/-- Modelled from the spec: the `dirichlet::strategy` enum is declared
outside the sources under verification; the spec lists its values as
elimination, Nitsche and penalty. -/
inductive strategy where
  | elimination
  | nitsche
  | penalty

/-- Modelled from the spec: the numeric `index_t` values of the
`dirichlet::strategy` enumerators are not in the sources under
verification; only distinctness of the cast values is relied upon. -/
def strategy.toIndex : strategy → Int
  | .elimination => 11
  | .nitsche => 12
  | .penalty => 13

end dirichlet

/-- Embedding of `gsOptionList` restricted to its integer entries (the only
kind this core touches): an association list from option labels to
`index_t` values. -/
abbrev gsOptionList := List (String × Int)

/-- The option label used by the factory constructor. -/
def dirichletStrategyLabel : String := "DirichletStrategy"

/-- Embedding of `gsOptionList::setInt`: updates the value stored under a
label already present in the list (every list this development applies it
to contains the label). -/
def gsOptionList.setInt (opts : gsOptionList) (label : String) (v : Int) :
    gsOptionList :=
  opts.map (fun p => if p.1 = label then (label, v) else p)

/-- Embedding of `gsOptionList::getInt`: looks up the value stored under a
label. -/
def gsOptionList.getInt (opts : gsOptionList) (label : String) : Option Int :=
  (opts.find? (fun p => p.1 == label)).map Prod.snd

namespace gsGenericAssembler

/-- Modelled from the spec: `gsGenericAssembler<T>::defaultOptions()` is
declared outside the sources under verification.  The spec specifies only
that the recognized entry `DirichletStrategy` defaults to elimination and
that further assembler-specific entries pass through unvalidated; the
theorems below do not depend on any entry other than `DirichletStrategy`. -/
def defaultOptions : gsOptionList :=
  [(dirichletStrategyLabel, dirichlet.strategy.toIndex .elimination)]

end gsGenericAssembler

/-- Embedding of the fields of `gsSinglePatchPreconditioners<T>`: the basis
reference `m_basis` and the boundary conditions `m_bc` are opaque to this
core and embedded as values of abstract types. -/
structure gsSinglePatchPreconditioners (B C : Type) where
  m_basis : B
  m_bc : C
  m_options : gsOptionList

namespace gsSinglePatchPreconditioners

/-- Embedding of the constructor taking a basis, boundary conditions and a
`dirichlet::strategy`: the member initializer
`m_options(gsGenericAssembler<T>::defaultOptions())` followed by the body
`m_options.setInt("DirichletStrategy", (index_t) _dirichlet)`. -/
def mkStrategy {B C : Type} (b : B) (c : C) (d : dirichlet.strategy) :
    gsSinglePatchPreconditioners B C :=
  { m_basis := b, m_bc := c,
    m_options := gsOptionList.setInt gsGenericAssembler.defaultOptions
      dirichletStrategyLabel d.toIndex }

/-- Embedding of calling the strategy constructor with its defaulted
argument `_dirichlet = dirichlet::elimination`. -/
def mkDefault {B C : Type} (b : B) (c : C) : gsSinglePatchPreconditioners B C :=
  mkStrategy b c dirichlet.strategy.elimination

/-- Embedding of the constructor taking a full `gsOptionList`:
`m_options(_opt)` with no modification. -/
def mkOptions {B C : Type} (b : B) (c : C) (opt : gsOptionList) :
    gsSinglePatchPreconditioners B C :=
  { m_basis := b, m_bc := c, m_options := opt }

end gsSinglePatchPreconditioners

/-- A concrete preconditioner on integer iterates used to instantiate the
theorems, with distinguishable `step` and `stepT` sweeps. -/
def wOpA : gsPreconditionerOp Int Nat :=
  { step := fun f x => x + f
    stepT := fun f x => 2 * x + f
    rows := 4
    cols := 4
    underlyingOp := 1 }

/-- A second concrete preconditioner, distinct from `wOpA` so that the
order of application is observable. -/
def wOpB : gsPreconditionerOp Int Nat :=
  { step := fun f x => x * 3 + f
    stepT := fun f x => x - f
    rows := 6
    cols := 5
    underlyingOp := 2 }

/-- A concrete preconditioner whose `step` writes the exact solution
`A⁻¹ f`, for `A⁻¹` doubling its argument, ignoring the incoming iterate. -/
def wOpExact : gsPreconditionerOp Int Nat :=
  { step := fun f _ => 2 * f
    stepT := fun f _ => 2 * f
    rows := 4
    cols := 4
    underlyingOp := 3 }

section FoldLemmas

variable {A V : Type}

/-- Index-driven monadic left fold over the first `n` positions of a list
succeeds and equals the plain fold over `L.take n`, provided `n` stays
within the list. -/
theorem foldlM_range_get (g : V → A → V) (L : List A) (x : V) :
    ∀ n, n ≤ L.length →
      (List.range n).foldlM (fun y i => (L[i]?).map (fun a => g y a)) x
        = some ((L.take n).foldl g x) := by
  intro n
  induction n with
  | zero => intro _; simp
  | succ n ih =>
    intro hn
    have hn' : n ≤ L.length := Nat.le_of_succ_le hn
    have hlt : n < L.length := hn
    rw [List.range_succ, List.foldlM_append, ih hn']
    simp [List.foldl_append]
    exact ⟨L[n], List.getElem?_eq_getElem hlt, by
      rw [List.take_succ, List.getElem?_eq_getElem hlt, Option.toList_some,
        List.foldl_append]
      rfl⟩

/-- Reversed-index-driven monadic left fold over the first `n` positions of
a list succeeds and equals the plain fold over `(L.take n).reverse`,
provided `n` stays within the list. -/
theorem foldlM_range_reverse_get (g : V → A → V) (L : List A) :
    ∀ n, n ≤ L.length → ∀ x : V,
      ((List.range n).reverse).foldlM (fun y i => (L[i]?).map (fun a => g y a)) x
        = some (((L.take n).reverse).foldl g x) := by
  intro n
  induction n with
  | zero => intro _ x; simp
  | succ n ih =>
    intro hn x
    have hn' : n ≤ L.length := Nat.le_of_succ_le hn
    have hlt : n < L.length := hn
    rw [List.range_succ, List.reverse_append]
    simp only [List.reverse_singleton, List.singleton_append, List.foldlM_cons,
      List.getElem?_eq_getElem hlt, Option.map_some']
    show ((some (g x L[n])).bind fun y =>
      (List.range n).reverse.foldlM (fun y i => (L[i]?).map (fun a => g y a)) y) = _
    rw [Option.some_bind, ih hn' (g x L[n])]
    rw [List.take_succ, List.getElem?_eq_getElem hlt, Option.toList_some,
      List.reverse_append]
    rfl

/-- A left fold by a function that sends every element of the list to the
same fixed value, on a nonempty list, ends at that fixed value. -/
theorem foldl_fixed_of_mem (g : V → A → V) (v : V) :
    ∀ L : List A, L ≠ [] → (∀ a ∈ L, ∀ y, g y a = v) → ∀ x, L.foldl g x = v := by
  intro L
  induction L with
  | nil => intro h; exact absurd rfl h
  | cons a M ih =>
    intro _ hall x
    cases M with
    | nil => simpa using hall a (by simp) x
    | cons b N =>
      rw [List.foldl_cons]
      exact ih (by simp) (fun a ha y => hall a (List.mem_cons_of_mem _ ha) y) (g x a)

end FoldLemmas

namespace gsCompositionOfPreconditionersOp

variable {V O : Type}

/-- Under the invariant `m_sz = m_ops.length`, `step` succeeds and equals
the ascending plain fold of the constituents' `step` sweeps. -/
theorem step_eq (c : gsCompositionOfPreconditionersOp V O) (h : c.Invariant)
    (f x : V) :
    c.step f x = some (c.m_ops.foldl (fun y op => op.step f y) x) := by
  unfold step
  rw [h, foldlM_range_get (fun y op => gsPreconditionerOp.step op f y) c.m_ops x
    c.m_ops.length (Nat.le_refl _), List.take_length]

/-- Under the invariant, `stepT` succeeds and equals the plain fold of the
constituents' `stepT` sweeps over the reversed operator list. -/
theorem stepT_eq (c : gsCompositionOfPreconditionersOp V O) (h : c.Invariant)
    (f x : V) :
    c.stepT f x = some (c.m_ops.reverse.foldl (fun y op => op.stepT f y) x) := by
  unfold stepT
  rw [h, foldlM_range_reverse_get (fun y op => gsPreconditionerOp.stepT op f y)
    c.m_ops c.m_ops.length (Nat.le_refl _) x, List.take_length]

/-- Under the invariant, the state-threaded `stepFull` succeeds, leaves the
`f` component untouched, and updates the `x` component as `step` does. -/
theorem stepFull_eq (c : gsCompositionOfPreconditionersOp V O) (h : c.Invariant)
    (f x : V) :
    c.stepFull (f, x) = some (f, c.m_ops.foldl (fun y op => op.step f y) x) := by
  unfold stepFull
  rw [h, foldlM_range_get (fun q op => (q.1, gsPreconditionerOp.step op q.1 q.2))
    c.m_ops (f, x) c.m_ops.length (Nat.le_refl _), List.take_length]
  congr 1
  induction c.m_ops generalizing x with
  | nil => rfl
  | cons a L ih => simpa using ih (a.step f x)

/-- Under the invariant, the state-threaded `stepTFull` succeeds, leaves the
`f` component untouched, and updates the `x` component as `stepT` does. -/
theorem stepTFull_eq (c : gsCompositionOfPreconditionersOp V O) (h : c.Invariant)
    (f x : V) :
    c.stepTFull (f, x)
      = some (f, c.m_ops.reverse.foldl (fun y op => op.stepT f y) x) := by
  unfold stepTFull
  rw [h, foldlM_range_reverse_get
    (fun q op => (q.1, gsPreconditionerOp.stepT op q.1 q.2))
    c.m_ops c.m_ops.length (Nat.le_refl _) (f, x), List.take_length]
  congr 1
  induction c.m_ops.reverse generalizing x with
  | nil => rfl
  | cons a L ih => simpa using ih (a.stepT f x)

end gsCompositionOfPreconditionersOp

namespace gsCompositionOfPreconditionersOp

variable {V O : Type}

/-- Claim C1: for every composition satisfying the size invariant, `stepT`
applies the constituents' `stepT` in strictly descending index order
(realized as the fold over the reversed operator list, each sweep on the
same right-hand side and on the iterate produced by the previous sweep);
in particular, for a composition of two operators `P1`, `P2`, the composed
`stepT` equals `P1.stepT` composed after `P2.stepT`. -/
theorem stepT_descending_order (c : gsCompositionOfPreconditionersOp V O)
    (h : c.Invariant) (f x : V) :
    c.stepT f x = some (c.m_ops.reverse.foldl (fun y op => op.stepT f y) x) ∧
    ∀ P1 P2 : gsPreconditionerOp V O,
      (ofTwo P1 P2).stepT f x = some (P1.stepT f (P2.stepT f x)) := by
  refine ⟨c.stepT_eq h f x, fun P1 P2 => ?_⟩
  rw [(ofTwo P1 P2).stepT_eq rfl f x]
  rfl

/-- Witness for C1 on a concrete two-operator composition of integer
preconditioners. -/
theorem stepT_descending_order_witness :
    (ofTwo wOpA wOpB).stepT 5 3 = some 1 :=
  ((stepT_descending_order (ofTwo wOpA wOpB) rfl 5 3).2 wOpA wOpB).trans (by decide)

/-- Claim C2: for every composition satisfying the size invariant, `step`
applies the constituents' `step` in strictly ascending index order: it
equals the plain left fold of the constituents' sweeps over the operator
list, each sweep receiving the same right-hand side `f` and the iterate
produced by the previous sweep. -/
theorem step_ascending_order (c : gsCompositionOfPreconditionersOp V O)
    (h : c.Invariant) (f x : V) :
    c.step f x = some (c.m_ops.foldl (fun y op => op.step f y) x) :=
  c.step_eq h f x

/-- Witness for C2 on a concrete two-operator composition: the first sweep
runs first, the second on its output. -/
theorem step_ascending_order_witness :
    (ofTwo wOpA wOpB).step 5 3 = some 29 :=
  (step_ascending_order (ofTwo wOpA wOpB) rfl 5 3).trans (by decide)

/-- Claim C3: on the empty composition, `rows`, `cols` and `underlyingOp`
all fail their `GISMO_ASSERT` precondition (embedded as `none`), on every
invocation; none of them returns a default value such as `some 0`. -/
theorem emptyCtor_queries_fail :
    (emptyCtor : gsCompositionOfPreconditionersOp V O).rows = none ∧
    (emptyCtor : gsCompositionOfPreconditionersOp V O).cols = none ∧
    (emptyCtor : gsCompositionOfPreconditionersOp V O).underlyingOp = none :=
  ⟨rfl, rfl, rfl⟩

/-- Claim C4: for every composition with at least one element, `rows`,
`cols` and `underlyingOp` delegate to element 0. -/
theorem queries_delegate_to_first (c : gsCompositionOfPreconditionersOp V O)
    (op0 : gsPreconditionerOp V O) (hn : 0 < c.m_sz)
    (hhead : c.m_ops[0]? = some op0) :
    c.rows = some op0.rows ∧ c.cols = some op0.cols ∧
    c.underlyingOp = some op0.underlyingOp := by
  unfold rows cols underlyingOp
  rw [if_pos hn, if_pos hn, if_pos hn, hhead]
  exact ⟨rfl, rfl, rfl⟩

/-- Witness for C4 on a concrete two-operator composition: all three
queries report the data of the first element. -/
theorem queries_delegate_to_first_witness :
    (ofTwo wOpA wOpB).rows = some 4 ∧ (ofTwo wOpA wOpB).cols = some 4 ∧
    (ofTwo wOpA wOpB).underlyingOp = some 1 :=
  queries_delegate_to_first (ofTwo wOpA wOpB) wOpA (by decide) rfl

/-- Claim C5: if every constituent of a nonempty composition writes the
exact solution `Ainv f` on its `step` sweep regardless of the incoming
iterate, then a single composed `step` leaves the iterate equal to
`Ainv f`, regardless of the initial iterate and of the number of
constituents. -/
theorem step_exact_solvers (c : gsCompositionOfPreconditionersOp V O)
    (Ainv : V → V) (h : c.Invariant) (hn : 0 < c.m_sz)
    (hex : ∀ op ∈ c.m_ops, ∀ f x, op.step f x = Ainv f) (f x : V) :
    c.step f x = some (Ainv f) := by
  rw [c.step_eq h f x]
  have hne : c.m_ops ≠ [] := by
    intro hnil
    rw [Invariant, hnil] at h
    simp [h] at hn
  exact congrArg some
    (foldl_fixed_of_mem _ _ c.m_ops hne (fun op hop y => hex op hop f y) x)

/-- Witness for C5: two copies of an exact solver composed still produce
the exact solution after one pass. -/
theorem step_exact_solvers_witness :
    (ofTwo wOpExact wOpExact).step 5 3 = some 10 :=
  (step_exact_solvers (ofTwo wOpExact wOpExact) (fun f => 2 * f) rfl (by decide)
    (by
      intro op hop f x
      simp only [ofTwo, List.mem_cons, List.mem_singleton, List.not_mem_nil,
        or_false] at hop
      rcases hop with h | h <;> subst h <;> rfl) 5 3).trans (by decide)

/-- Claim C6: `addOperator` appends at the end: the reported size increases
by exactly 1, the stored operator list becomes the old list with the new
element appended (so the previous operators and their order are
unchanged), and for every subsequent `step` the new element is applied
last, while for every subsequent `stepT` it is applied first. -/
theorem addOperator_appends (c : gsCompositionOfPreconditionersOp V O)
    (op : gsPreconditionerOp V O) (h : c.Invariant) :
    (c.addOperator op).m_sz = c.m_sz + 1 ∧
    (c.addOperator op).m_ops = c.m_ops ++ [op] ∧
    ∀ f x : V,
      (c.addOperator op).step f x = (c.step f x).map (fun y => op.step f y) ∧
      (c.addOperator op).stepT f x = c.stepT f (op.stepT f x) := by
  have hadd : (c.addOperator op).Invariant := by
    simp only [Invariant, addOperator, List.length_append, List.length_cons,
      List.length_nil]
    simp only [Invariant] at h
    omega
  refine ⟨rfl, rfl, fun f x => ⟨?_, ?_⟩⟩
  · rw [(c.addOperator op).step_eq hadd f x, c.step_eq h f x]
    show some ((c.m_ops ++ [op]).foldl (fun y o => o.step f y) x) = _
    rw [List.foldl_append]
    rfl
  · rw [(c.addOperator op).stepT_eq hadd f x, c.stepT_eq h f (op.stepT f x)]
    show some (((c.m_ops ++ [op]).reverse).foldl (fun y o => o.stepT f y) x) = _
    rw [List.reverse_append]
    rfl

/-- Witness for C6 on a concrete two-operator composition extended by a
third operator. -/
theorem addOperator_appends_witness :
    ((ofTwo wOpA wOpB).addOperator wOpExact).m_sz = 3 ∧
    ((ofTwo wOpA wOpB).addOperator wOpExact).m_ops = [wOpA, wOpB, wOpExact] ∧
    ((ofTwo wOpA wOpB).addOperator wOpExact).step 5 3 = some 10 ∧
    ((ofTwo wOpA wOpB).addOperator wOpExact).stepT 5 3 = some 15 := by
  have h := addOperator_appends (ofTwo wOpA wOpB) wOpExact rfl
  exact ⟨h.1, h.2.1, ((h.2.2 5 3).1).trans (by decide),
    ((h.2.2 5 3).2).trans (by decide)⟩

/-- Claim C7: the invariant `m_sz = m_ops.size()` holds after each of the
four constructors (empty, from a vector, and the 2- and 3-operator
convenience constructors) and is preserved by `addOperator`.  (In this
embedding `step`, `stepT`, `rows`, `cols` and `underlyingOp` are pure
functions of the composition, mirroring their C++ const qualification, so
they cannot change either field.) -/
theorem ctor_invariant :
    Invariant (emptyCtor : gsCompositionOfPreconditionersOp V O) ∧
    (∀ ops : List (gsPreconditionerOp V O), Invariant (ofVector ops)) ∧
    (∀ a b : gsPreconditionerOp V O, Invariant (ofTwo a b)) ∧
    (∀ a b d : gsPreconditionerOp V O, Invariant (ofThree a b d)) ∧
    (∀ (c : gsCompositionOfPreconditionersOp V O) (op : gsPreconditionerOp V O),
      Invariant c → Invariant (c.addOperator op)) := by
  refine ⟨rfl, fun ops => rfl, fun a b => rfl, fun a b d => rfl,
    fun c op h => ?_⟩
  rw [Invariant, addOperator]
  simp [Invariant] at h
  simp [h]

/-- Witness for C7: a concrete composition built by a convenience
constructor and extended by `addOperator` satisfies the invariant. -/
theorem ctor_invariant_witness :
    Invariant ((ofTwo wOpA wOpB).addOperator wOpExact) :=
  ctor_invariant.2.2.2.2 (ofTwo wOpA wOpB) wOpExact
    (ctor_invariant.2.2.1 wOpA wOpB)

/-- Claim C8: threading the full `(f, x)` reference state through the
loops, both `step` and `stepT` leave the right-hand side component equal
to the incoming `f`; only the iterate component is updated (and it is
updated exactly as the iterate-only `step`/`stepT` compute it). -/
theorem step_preserves_rhs (c : gsCompositionOfPreconditionersOp V O)
    (h : c.Invariant) (f x : V) :
    c.stepFull (f, x) = (c.step f x).map (fun y => (f, y)) ∧
    c.stepTFull (f, x) = (c.stepT f x).map (fun y => (f, y)) := by
  rw [c.stepFull_eq h f x, c.step_eq h f x, c.stepTFull_eq h f x,
    c.stepT_eq h f x]
  exact ⟨rfl, rfl⟩

/-- Witness for C8 on a concrete two-operator composition: the `f`
component survives both sweeps unchanged. -/
theorem step_preserves_rhs_witness :
    (ofTwo wOpA wOpB).stepFull (5, 3) = some (5, 29) ∧
    (ofTwo wOpA wOpB).stepTFull (5, 3) = some (5, 1) := by
  have h := step_preserves_rhs (ofTwo wOpA wOpB) rfl 5 3
  exact ⟨h.1.trans (by decide), h.2.trans (by decide)⟩

/-- Claim C10: on the empty composition, `step` and `stepT` return
normally (the loop body never runs) and leave the iterate — and the full
`(f, x)` state — completely unchanged, in contrast to `rows`, `cols` and
`underlyingOp`, which fail their assertion there. -/
theorem emptyCtor_step_noop (f x : V) :
    (emptyCtor : gsCompositionOfPreconditionersOp V O).step f x = some x ∧
    (emptyCtor : gsCompositionOfPreconditionersOp V O).stepT f x = some x ∧
    (emptyCtor : gsCompositionOfPreconditionersOp V O).stepFull (f, x)
      = some (f, x) ∧
    (emptyCtor : gsCompositionOfPreconditionersOp V O).stepTFull (f, x)
      = some (f, x) ∧
    (emptyCtor : gsCompositionOfPreconditionersOp V O).rows = none ∧
    (emptyCtor : gsCompositionOfPreconditionersOp V O).cols = none ∧
    (emptyCtor : gsCompositionOfPreconditionersOp V O).underlyingOp = none :=
  ⟨rfl, rfl, rfl, rfl, rfl, rfl, rfl⟩

end gsCompositionOfPreconditionersOp

namespace gsSinglePatchPreconditioners

/-- Claim C9: the strategy constructor stores exactly the generic
assembler's default option set with its `DirichletStrategy` entry set to
the given enum value: the stored `DirichletStrategy` value is the cast of
the given strategy, every other option label keeps its default value, and
constructing with the argument omitted equals constructing with
elimination. -/
theorem mkStrategy_options {B C : Type} (b : B) (c : C)
    (d : dirichlet.strategy) :
    (mkStrategy b c d).m_options
      = gsOptionList.setInt gsGenericAssembler.defaultOptions
          dirichletStrategyLabel d.toIndex ∧
    gsOptionList.getInt (mkStrategy b c d).m_options dirichletStrategyLabel
      = some d.toIndex ∧
    (∀ label : String, label ≠ dirichletStrategyLabel →
      gsOptionList.getInt (mkStrategy b c d).m_options label
        = gsOptionList.getInt gsGenericAssembler.defaultOptions label) ∧
    mkDefault b c = mkStrategy b c dirichlet.strategy.elimination := by
  refine ⟨rfl, ?_, ?_, rfl⟩
  · simp [mkStrategy, gsOptionList.getInt, gsOptionList.setInt,
      gsGenericAssembler.defaultOptions]
  · intro label hne
    have hbeq : (dirichletStrategyLabel == label) = false :=
      beq_eq_false_iff_ne.mpr (Ne.symm hne)
    simp [mkStrategy, gsOptionList.getInt, gsOptionList.setInt,
      gsGenericAssembler.defaultOptions, List.find?, hbeq]

/-- Witness for C9 at a concrete strategy and a concrete non-strategy
label. -/
theorem mkStrategy_options_witness :
    gsOptionList.getInt
        (mkStrategy () () dirichlet.strategy.nitsche).m_options
        dirichletStrategyLabel
      = some (dirichlet.strategy.toIndex .nitsche) ∧
    gsOptionList.getInt
        (mkStrategy () () dirichlet.strategy.nitsche).m_options
        (String.append dirichletStrategyLabel dirichletStrategyLabel)
      = gsOptionList.getInt gsGenericAssembler.defaultOptions
          (String.append dirichletStrategyLabel dirichletStrategyLabel) :=
  ⟨(mkStrategy_options () () dirichlet.strategy.nitsche).2.1,
    (mkStrategy_options () () dirichlet.strategy.nitsche).2.2.1
      (String.append dirichletStrategyLabel dirichletStrategyLabel)
      (by decide)⟩

end gsSinglePatchPreconditioners
